import Mathlib

set_option maxHeartbeats 1000000
set_option maxRecDepth 4000

namespace Sdk

/- =========================================================================
Shallow embedding of the action-orchestration helpers of
src/balancer-js/src/modules/swaps/joinExit/actions/helpers.ts
and of the simulation dispatcher (the Simulation class in src/unnamed/part_001).
Machine-numeric values are modelled as Nat/Int; fallible code returns
Except; external collaborators (ABI coder, Tenderly helper, chain signer,
vault-model replica) are oracle fields of an environment record.
========================================================================= -/

inductive ActionType where
  | Join
  | Exit
  | BatchSwap
deriving DecidableEq, Repr

inductive ActionStep where
  | Direct
  | TokenIn
  | TokenOut
  | Middle
deriving DecidableEq, Repr

def chainedRefHead : String := "chainedRef("

def chainedRefTail : String := ")"

namespace Relayer

/-- Modelled from the spec: the relayer module (not under src) builds an opaque
chained-reference placeholder from a numeric key; it is rendered here as a
tagged string so that distinct keys give distinct reference strings. -/
def toChainedReference (key : Int) : String :=
  chainedRefHead ++ toString key ++ chainedRefTail

end Relayer

/-- Embedding of getActionAmount (helpers.ts lines 15-30). -/
def getActionAmount (amount : String) (actionType : ActionType)
    (actionStep : ActionStep) (opRefKey : Int) : String :=
  if actionStep == ActionStep.TokenOut
      || (actionStep == ActionStep.Middle && actionType == ActionType.Join)
      || (actionStep == ActionStep.Middle && actionType == ActionType.Exit) then
    Relayer.toChainedReference (opRefKey - 1)
  else
    amount

structure OutputReference where
  index : Nat
  key : String
deriving DecidableEq, Repr

/-- Embedding of getOutputRef (helpers.ts lines 32-35). -/
def getOutputRef (key : Int) (index : Nat) : OutputReference :=
  { index := index, key := Relayer.toChainedReference key }

/-- Embedding of getActionOutputRef (helpers.ts lines 44-55); the empty
object cast of the source is modelled as `none`. -/
def getActionOutputRef (actionStep : ActionStep) (tokenOutIndex : Nat)
    (opRefKey : Int) : Option OutputReference × Int :=
  if actionStep == ActionStep.TokenIn || actionStep == ActionStep.Middle then
    (some (getOutputRef opRefKey tokenOutIndex), opRefKey + 1)
  else
    (none, opRefKey)

/-- Embedding of getActionStep (helpers.ts lines 84-104). -/
def getActionStep (tokenInIndex tokenOutIndex tokenInIndexAction
    tokenOutIndexAction : Nat) : ActionStep :=
  if tokenInIndexAction == tokenInIndex && tokenOutIndexAction == tokenOutIndex then
    ActionStep.Direct
  else if tokenInIndexAction == tokenInIndex then
    ActionStep.TokenIn
  else if tokenOutIndexAction == tokenOutIndex then
    ActionStep.TokenOut
  else
    ActionStep.Middle

/-- Threading the reference counter through a sequence of getActionOutputRef
calls, as callers do action by action in sequence order. -/
def threadOutputRefs : List (ActionStep × Nat) → Int → List (Option OutputReference) × Int
  | [], k => ([], k)
  | (s, i) :: rest, k =>
    let r := getActionOutputRef s i k
    let rs := threadOutputRefs rest r.2
    (r.1 :: rs.1, rs.2)

/-- Payload of a BatchSwap action. The swap steps are kept opaque (Nat tags);
the `source` field is modelled from the spec: the funding-source
classification (external wallet balance vs internal balance) of the steps,
which the Swap class (not under src) uses to decide batching compatibility. -/
structure BatchSwapData where
  source : Bool
  swaps : List Nat
  hasTokenIn : Bool
  hasTokenOut : Bool
deriving DecidableEq, Repr

/-- The Actions variant: Join, Exit or BatchSwap, with the metadata the
helpers inspect (type, hasTokenIn, hasTokenOut, a tag to tell values apart). -/
inductive Action where
  | join (hasTokenIn hasTokenOut : Bool) (tag : Nat)
  | exit (hasTokenIn hasTokenOut : Bool) (tag : Nat)
  | batchSwap (d : BatchSwapData)
deriving DecidableEq, Repr

def Action.type : Action → ActionType
  | .join .. => ActionType.Join
  | .exit .. => ActionType.Exit
  | .batchSwap .. => ActionType.BatchSwap

def Action.hasTokenIn : Action → Bool
  | .join ti _ _ => ti
  | .exit ti _ _ => ti
  | .batchSwap d => d.hasTokenIn

def Action.hasTokenOut : Action → Bool
  | .join _ t _ => t
  | .exit _ t _ => t
  | .batchSwap d => d.hasTokenOut

def isSwapAction : Action → Bool
  | Action.batchSwap _ => true
  | _ => false

/-- The enter predicate of categorizeActions: a Join/Exit with the overall
token in (helpers.ts line 131). -/
def isEnterAction (a : Action) : Bool :=
  (a.type == ActionType.Exit || a.type == ActionType.Join) && a.hasTokenIn

/-- The exit predicate of categorizeActions: a Join/Exit with the overall
token out and not the token in (helpers.ts line 133). -/
def isExitAction (a : Action) : Bool :=
  (a.type == ActionType.Exit || a.type == ActionType.Join)
    && !a.hasTokenIn && a.hasTokenOut

def isMiddleAction (a : Action) : Bool :=
  !isEnterAction a && !isExitAction a

/-- The loop of categorizeActions (helpers.ts lines 128-138), building the
three partitions in input order. -/
def categorizeLoop : List Action → List Action × List Action × List Action
  | [] => ([], [], [])
  | a :: rest =>
    let emx := categorizeLoop rest
    if a.type == ActionType.Exit || a.type == ActionType.Join then
      if a.hasTokenIn then (a :: emx.1, emx.2.1, emx.2.2)
      else if a.hasTokenOut then (emx.1, emx.2.1, a :: emx.2.2)
      else (emx.1, a :: emx.2.1, emx.2.2)
    else (emx.1, a :: emx.2.1, emx.2.2)

/-- Embedding of categorizeActions (helpers.ts lines 124-145). -/
def categorizeActions (actions : List Action) : List Action :=
  let emx := categorizeLoop actions
  emx.1 ++ emx.2.1 ++ emx.2.2

/-- Modelled from the spec: Swap.canAddSwap (the Swap class is not under src)
accepts a new batch-swap into the running aggregate exactly when the
funding-source classifications match. -/
def canAddSwap (agg a : BatchSwapData) : Bool :=
  agg.source == a.source

/-- Modelled from the spec: Swap.addSwap appends the incoming swap steps to
the running aggregate, keeping the aggregate funding-source classification. -/
def addSwap (agg a : BatchSwapData) : BatchSwapData :=
  { agg with swaps := agg.swaps ++ a.swaps }

/-- The scan of batchSwapActions (helpers.ts lines 160-187) as a structural
recursion over the remaining actions, the first argument being the
in-progress aggregate (`batchedSwaps`, `none` when unset; `copy` of a pure
value is the value itself). The base case with a pending aggregate performs
the final flush of line 185, which only fires for a singleton aggregate. -/
def batchAux : Option BatchSwapData → List Action → List Action
  | none, [] => []
  | some agg, [] =>
    if agg.swaps.length == 1 then [Action.batchSwap agg] else []
  | none, Action.batchSwap d :: rest => batchAux (some d) rest
  | none, Action.join ti t g :: rest => Action.join ti t g :: batchAux none rest
  | none, Action.exit ti t g :: rest => Action.exit ti t g :: batchAux none rest
  | some agg, Action.batchSwap d :: rest =>
    if canAddSwap agg d then batchAux (some (addSwap agg d)) rest
    else Action.batchSwap agg :: batchAux (some d) rest
  | some agg, Action.join ti t g :: rest =>
    Action.batchSwap agg :: Action.join ti t g :: batchAux none rest
  | some agg, Action.exit ti t g :: rest =>
    Action.batchSwap agg :: Action.exit ti t g :: batchAux none rest

/-- Embedding of batchSwapActions (helpers.ts lines 153-189). -/
def batchSwapActions (allActions : List Action) : List Action :=
  batchAux none allActions

/-- Embedding of orderActions (helpers.ts lines 197-201). -/
def orderActions (actions : List Action) : List Action :=
  batchSwapActions (categorizeActions actions)

def swapStepCount : Action → Nat
  | Action.batchSwap d => d.swaps.length
  | _ => 0

def sumNat (vs : List Nat) : Nat := vs.foldl (· + ·) 0

def sumInt (ds : List Int) : Int := ds.foldl (· + ·) 0

def totalSwapSteps (ys : List Action) : Nat := sumNat (ys.map swapStepCount)

/-- The steps for which getActionOutputRef allocates a reference. -/
def isAllocStep (p : ActionStep × Nat) : Bool :=
  p.1 == ActionStep.TokenIn || p.1 == ActionStep.Middle

/-- Holds when the last element, if it is a BatchSwap, carries exactly one
swap step (the only trailing aggregate the final flush of line 185 keeps). -/
def lastAggSingleton (ys : List Action) : Bool :=
  match ys.getLast? with
  | some (Action.batchSwap d) => d.swaps.length == 1
  | _ => true

/-- Two adjacent output elements never form a mergeable swap pair. -/
def incompatible (a b : Action) : Prop :=
  ∀ d1 d2, a = Action.batchSwap d1 → b = Action.batchSwap d2 →
    canAddSwap d1 d2 = false

/-- When the scan state holds an aggregate, a swap at the head of the output
produced from that state carries the aggregate funding source. -/
def headSourceOK : Option BatchSwapData → List Action → Prop
  | none, _ => True
  | some agg, ys => ∀ d, ys.head? = some (Action.batchSwap d) → d.source = agg.source

/- =========================================================================
Simulation dispatcher (the Simulation class of src/unnamed/part_001).
========================================================================= -/

inductive IOEvent where
  | tenderlyCall
  | vaultCall
  | staticChainCall
deriving DecidableEq, Repr

structure SwapRequestStep where
  poolId : String
deriving DecidableEq, Repr

/-- The vault-model request shape the dispatcher inspects: an action type,
a pool id (Join/Exit) and swap steps (BatchSwap). -/
structure Request where
  actionType : ActionType
  poolId : String
  swaps : List SwapRequestStep
deriving DecidableEq, Repr

structure SimResult where
  amountsOut : List String
  totalAmountOut : String
deriving DecidableEq, Repr

/-- Oracle environment for the dispatcher: the Tenderly helper, the signer
static call, the ABI coder and the optional vault-model replica are external
collaborators, modelled as opaque functions. -/
structure SimEnv where
  tenderlySimulate : String → String → String → List String → String
  staticCall : String → String → Nat → String
  decodeBytesArray : String → List String
  decodeUint : String → Nat
  vaultModel : Option (List Request → Bool → String → Option Int)

def msgMissingVaultModel : String := "Missing Vault Model Config."

def msgNotSupported : String := "Simulation type not supported"

def msgNoLastRequest : String := "cannot read the last request of an empty path"

def msgNoSwapStep : String := "cannot read poolId of an empty swaps array"

def msgNoDelta : String := "cannot negate an undefined delta"

def msgDecodeUndefined : String := "cannot decode an undefined sub-result"

def strEmpty : String := ""

/-- Modelled from the spec: getPoolAddress (pool-utils, not under src)
extracts the pool receipt-token (BPT) address, the address prefix of the
pool id. -/
def getPoolAddress (poolId : String) : String :=
  poolId.take 42

/-- The root pool id of the last request of a path (part_001 lines 70-79);
`none` models the crash on an empty swaps array. -/
def rootPoolIdOf (lastRequest : Request) : Option String :=
  match lastRequest.actionType with
  | ActionType.Join => some lastRequest.poolId
  | ActionType.Exit => some lastRequest.poolId
  | ActionType.BatchSwap => (lastRequest.swaps.head?).map SwapRequestStep.poolId

/-- One vault-model path (part_001 lines 70-85): find the root pool of the
last request, replay the path against the replica, negate the delta of the
root BPT address. The second component counts replica multicalls performed.
A missing delta crashes at the negation (the source dereferences
`deltas[rootPoolAddress]` before its falsy guard, and the guard itself can
never fire on a BigNumber, which is always truthy). -/
def vaultModelPath (vm : List Request → Bool → String → Option Int)
    (requests : List Request) (isFirst : Bool) : Except String Int × Nat :=
  match requests.getLast? with
  | none => (Except.error msgNoLastRequest, 0)
  | some lastRequest =>
    match rootPoolIdOf lastRequest with
    | none => (Except.error msgNoSwapStep, 0)
    | some poolId =>
      let rootPoolAddress := getPoolAddress poolId
      let deltas := vm requests isFirst
      match deltas rootPoolAddress with
      | none => (Except.error msgNoDelta, 1)
      | some delta => (Except.ok (-delta), 1)

/-- The per-path loop of the VaultModel branch (part_001 lines 69-86),
accumulating the amountsOut strings and the running total. -/
def runVaultPaths (vm : List Request → Bool → String → Option Int) :
    List (List Request) → Bool → List String → Int →
    Except String (List String × Int) × Nat
  | [], _, amountsOut, total => (Except.ok (amountsOut, total), 0)
  | requests :: rest, isFirst, amountsOut, total =>
    match vaultModelPath vm requests isFirst with
    | (Except.error e, n) => (Except.error e, n)
    | (Except.ok delta, n) =>
      let r := runVaultPaths vm rest false (amountsOut ++ [toString delta]) (total + delta)
      (r.1, n + r.2)

/-- The signed deltas of the paths, path by path, first path flagged. -/
def vaultDeltas (vm : List Request → Bool → String → Option Int) :
    List (List Request) → Bool → Except String (List Int)
  | [], _ => Except.ok []
  | requests :: rest, isFirst =>
    match (vaultModelPath vm requests isFirst).1 with
    | Except.error e => Except.error e
    | Except.ok delta => (vaultDeltas vm rest false).map (fun ds => delta :: ds)

/-- The forEach of decodeResult (part_001 lines 113-120): look the sub-result
up at each output index, decode a uint256, accumulate the string and the
running total; an out-of-range index crashes the decode. -/
def decodeLoop (env : SimEnv) (multicallResult : List String) :
    List Nat → List String → Nat → Except String (List String × Nat)
  | [], amountsOut, total => Except.ok (amountsOut, total)
  | outputIndex :: rest, amountsOut, total =>
    match multicallResult[outputIndex]? with
    | none => Except.error msgDecodeUndefined
    | some bytes =>
      let value := env.decodeUint bytes
      decodeLoop env multicallResult rest (amountsOut ++ [toString value]) (total + value)

/-- Embedding of decodeResult (part_001 lines 103-123). -/
def decodeResult (env : SimEnv) (result : String) (outputIndexes : List Nat) :
    Except String SimResult :=
  match decodeLoop env (env.decodeBytesArray result) outputIndexes [] 0 with
  | Except.error e => Except.error e
  | Except.ok p => Except.ok { amountsOut := p.1, totalAmountOut := toString p.2 }

/-- The VaultModel case of the dispatcher (part_001 lines 62-88): require a
configured replica, then run the paths and shape the accumulated outcome. -/
def vaultBranch (env : SimEnv) (multiRequests : List (List Request)) :
    Except String SimResult × List IOEvent :=
  match env.vaultModel with
  | none => (Except.error msgMissingVaultModel, [])
  | some vm =>
    let r := runVaultPaths vm multiRequests true [] 0
    (r.1.map (fun p => { amountsOut := p.1, totalAmountOut := toString p.2 }),
      List.replicate r.2 IOEvent.vaultCall)

/-- Embedding of simulateGeneralisedJoin (part_001 lines 41-101). The
simulation type mirrors the numeric TS enum (Tenderly = 0, VaultModel = 1,
Static = 2; any other number reaches the default branch). The second
component records the external calls performed, in order. -/
def simulateGeneralisedJoin (env : SimEnv) (toAddress : String)
    (multiRequests : List (List Request)) (encodedCall : String)
    (outputIndexes : List Nat) (userAddress : String) (tokensIn : List String)
    (simulationType : Nat) : Except String SimResult × List IOEvent :=
  if simulationType == 0 then
    let simulationResult := env.tenderlySimulate toAddress encodedCall userAddress tokensIn
    (decodeResult env simulationResult outputIndexes, [IOEvent.tenderlyCall])
  else if simulationType == 1 then
    vaultBranch env multiRequests
  else if simulationType == 2 then
    let staticResult := env.staticCall toAddress encodedCall 8000000
    (decodeResult env staticResult outputIndexes, [IOEvent.staticChainCall])
  else
    (Except.error msgNotSupported, [])

/- =========================================================================
Concrete fixtures used by scenario conjuncts and witnesses.
========================================================================= -/

def swapDataA : BatchSwapData :=
  { source := true, swaps := [0], hasTokenIn := false, hasTokenOut := false }

def swapDataB : BatchSwapData :=
  { source := true, swaps := [1], hasTokenIn := false, hasTokenOut := false }

def swapDataC : BatchSwapData :=
  { source := false, swaps := [2], hasTokenIn := false, hasTokenOut := false }

def swapDataD : BatchSwapData :=
  { source := false, swaps := [3], hasTokenIn := false, hasTokenOut := false }

def joinIn : Action := Action.join true false 0

def exitOut : Action := Action.exit false true 1

def strSeven : String := "7"

def strTo : String := "vault"

def strCall : String := "calldata"

def strUser : String := "user"

def strRaw : String := "rawresult"

def strB0 : String := "aa"

def strB1 : String := "bbbb"

def poolIdA : String := "pool-a"

def reqJoinA : Request :=
  { actionType := ActionType.Join, poolId := poolIdA, swaps := [] }

def vmA : List Request → Bool → String → Option Int :=
  fun _ _ addr => if addr == getPoolAddress poolIdA then some (-4) else none

def envNone : SimEnv :=
  { tenderlySimulate := fun _ _ _ _ => strEmpty
    staticCall := fun _ _ _ => strEmpty
    decodeBytesArray := fun _ => []
    decodeUint := fun _ => 0
    vaultModel := none }

def envVault : SimEnv :=
  { tenderlySimulate := fun _ _ _ _ => strEmpty
    staticCall := fun _ _ _ => strEmpty
    decodeBytesArray := fun _ => []
    decodeUint := fun _ => 0
    vaultModel := some vmA }

def envDec : SimEnv :=
  { tenderlySimulate := fun _ _ _ _ => strRaw
    staticCall := fun _ _ _ => strRaw
    decodeBytesArray := fun _ => [strB0, strB1]
    decodeUint := fun s => s.length
    vaultModel := none }

/-- The SimResult built from a list of per-path deltas: each delta rendered
to a string, the total their sum. -/
def simResultOfDeltas (ds : List Int) : SimResult :=
  { amountsOut := ds.map toString
    totalAmountOut := toString (sumInt ds) }

/-- The SimResult decodeResult produces on in-range indexes: the uint decoded
from the sub-result at each caller-supplied index, in caller order, with the
sum of all decoded values as the total. -/
def decodedSimResult (env : SimEnv) (raw : String) (outputIndexes : List Nat) :
    SimResult :=
  { amountsOut := outputIndexes.map (fun i =>
      toString (env.decodeUint ((env.decodeBytesArray raw).getD i strEmpty)))
    totalAmountOut := toString (sumNat (outputIndexes.map (fun i =>
      env.decodeUint ((env.decodeBytesArray raw).getD i strEmpty)))) }

/- =========================================================================
Theorems.
========================================================================= -/

/-- C3 counterexample: for a Middle step of a BatchSwap action the source
falls through to the literal amount, although Middle is neither Direct nor
TokenIn, and the result is not the chained reference at key counter minus
one either — refuting the claim that the literal amount is returned
unchanged only for Direct and TokenIn steps. -/
theorem getActionAmount_middle_batchswap_literal :
    getActionAmount strSeven ActionType.BatchSwap ActionStep.Middle 5 = strSeven
    ∧ ActionStep.Middle ≠ ActionStep.Direct
    ∧ ActionStep.Middle ≠ ActionStep.TokenIn
    ∧ getActionAmount strSeven ActionType.BatchSwap ActionStep.Middle 5
        ≠ Relayer.toChainedReference (5 - 1) := by
  refine ⟨rfl, by decide, by decide, ?_⟩
  decide

/-- C3 (amended): getActionAmount returns the chained-reference string at
key counter minus one for a TokenOut step and for a Middle step of type
Join or Exit, and returns the literal amount unchanged for Direct, TokenIn,
and also for a Middle step of type BatchSwap. -/
theorem getActionAmount_spec (amount : String) (actionType : ActionType)
    (actionStep : ActionStep) (opRefKey : Int) :
    ((actionStep = ActionStep.TokenOut
        ∨ (actionStep = ActionStep.Middle
            ∧ (actionType = ActionType.Join ∨ actionType = ActionType.Exit))) →
      getActionAmount amount actionType actionStep opRefKey
        = Relayer.toChainedReference (opRefKey - 1))
    ∧ ((actionStep = ActionStep.Direct ∨ actionStep = ActionStep.TokenIn
        ∨ (actionStep = ActionStep.Middle ∧ actionType = ActionType.BatchSwap)) →
      getActionAmount amount actionType actionStep opRefKey = amount) := by
  cases actionStep <;> cases actionType <;> simp [getActionAmount]

/-- C3 witness: the amended characterization applied at a TokenOut step. -/
theorem getActionAmount_spec_witness :
    getActionAmount strSeven ActionType.Join ActionStep.TokenOut 5
      = Relayer.toChainedReference (5 - 1) :=
  (getActionAmount_spec strSeven ActionType.Join ActionStep.TokenOut 5).1 (Or.inl rfl)

/-- C4: getActionOutputRef allocates an output reference at the current key
and increments the counter exactly for TokenIn and Middle steps, returns the
empty reference with the counter unchanged for Direct and TokenOut
(in particular at TokenOut with key 5, and at Middle with index 2 and key 5
it returns the reference with key 5 and counter 6), and threading the
counter through any sequence of calls leaves it non-decreasing, increased by
exactly the number of TokenIn and Middle steps encountered. -/
theorem getActionOutputRef_spec :
    (∀ i k, getActionOutputRef ActionStep.TokenOut i k = (none, k))
    ∧ (∀ i k, getActionOutputRef ActionStep.Direct i k = (none, k))
    ∧ (∀ i k, getActionOutputRef ActionStep.TokenIn i k
        = (some { index := i, key := Relayer.toChainedReference k }, k + 1))
    ∧ (∀ i k, getActionOutputRef ActionStep.Middle i k
        = (some { index := i, key := Relayer.toChainedReference k }, k + 1))
    ∧ getActionOutputRef ActionStep.Middle 2 5
        = (some { index := 2, key := Relayer.toChainedReference 5 }, 6)
    ∧ (∀ steps k, (threadOutputRefs steps k).2
        = k + (steps.filter isAllocStep).length)
    ∧ (∀ steps k, k ≤ (threadOutputRefs steps k).2) := by
  have hcount : ∀ (steps : List (ActionStep × Nat)) (k : Int),
      (threadOutputRefs steps k).2 = k + (steps.filter isAllocStep).length := by
    intro steps
    induction steps with
    | nil => intro k; simp [threadOutputRefs]
    | cons p rest ih =>
      intro k
      obtain ⟨s, i⟩ := p
      cases s with
      | Direct =>
        have h1 : (threadOutputRefs ((ActionStep.Direct, i) :: rest) k).2
            = (threadOutputRefs rest k).2 := rfl
        have h2 : List.filter isAllocStep ((ActionStep.Direct, i) :: rest)
            = List.filter isAllocStep rest := rfl
        rw [h1, h2, ih]
      | TokenOut =>
        have h1 : (threadOutputRefs ((ActionStep.TokenOut, i) :: rest) k).2
            = (threadOutputRefs rest k).2 := rfl
        have h2 : List.filter isAllocStep ((ActionStep.TokenOut, i) :: rest)
            = List.filter isAllocStep rest := rfl
        rw [h1, h2, ih]
      | TokenIn =>
        have h1 : (threadOutputRefs ((ActionStep.TokenIn, i) :: rest) k).2
            = (threadOutputRefs rest (k + 1)).2 := rfl
        have h2 : List.filter isAllocStep ((ActionStep.TokenIn, i) :: rest)
            = (ActionStep.TokenIn, i) :: List.filter isAllocStep rest := rfl
        rw [h1, h2, ih]
        simp only [List.length_cons]
        push_cast
        omega
      | Middle =>
        have h1 : (threadOutputRefs ((ActionStep.Middle, i) :: rest) k).2
            = (threadOutputRefs rest (k + 1)).2 := rfl
        have h2 : List.filter isAllocStep ((ActionStep.Middle, i) :: rest)
            = (ActionStep.Middle, i) :: List.filter isAllocStep rest := rfl
        rw [h1, h2, ih]
        simp only [List.length_cons]
        push_cast
        omega
  refine ⟨fun i k => rfl, fun i k => rfl, fun i k => rfl, fun i k => rfl,
    rfl, hcount, fun steps k => ?_⟩
  rw [hcount]
  omega

/-- C5: getActionStep is total and deterministic over the four token
indices, and its result is characterized by the precedence order of the
source: Direct exactly when both local indices match the global ones,
TokenIn exactly when only the input index matches, TokenOut exactly when
only the output index matches, Middle exactly when neither matches. -/
theorem getActionStep_spec (tokenInIndex tokenOutIndex tokenInIndexAction
    tokenOutIndexAction : Nat) :
    (getActionStep tokenInIndex tokenOutIndex tokenInIndexAction tokenOutIndexAction
        = ActionStep.Direct
      ↔ (tokenInIndexAction = tokenInIndex ∧ tokenOutIndexAction = tokenOutIndex))
    ∧ (getActionStep tokenInIndex tokenOutIndex tokenInIndexAction tokenOutIndexAction
        = ActionStep.TokenIn
      ↔ (tokenInIndexAction = tokenInIndex ∧ tokenOutIndexAction ≠ tokenOutIndex))
    ∧ (getActionStep tokenInIndex tokenOutIndex tokenInIndexAction tokenOutIndexAction
        = ActionStep.TokenOut
      ↔ (tokenInIndexAction ≠ tokenInIndex ∧ tokenOutIndexAction = tokenOutIndex))
    ∧ (getActionStep tokenInIndex tokenOutIndex tokenInIndexAction tokenOutIndexAction
        = ActionStep.Middle
      ↔ (tokenInIndexAction ≠ tokenInIndex ∧ tokenOutIndexAction ≠ tokenOutIndex)) := by
  by_cases h1 : tokenInIndexAction = tokenInIndex <;>
    by_cases h2 : tokenOutIndexAction = tokenOutIndex <;>
      simp [getActionStep, h1, h2]

theorem isMiddle_batchSwap (d : BatchSwapData) :
    isMiddleAction (Action.batchSwap d) = true := rfl

theorem nonswap_of_enter (a : Action) (h : isEnterAction a = true) :
    isSwapAction a = false := by
  cases a with
  | join ti t g => rfl
  | exit ti t g => rfl
  | batchSwap d => simp [isEnterAction, Action.type] at h

theorem nonswap_of_exit (a : Action) (h : isExitAction a = true) :
    isSwapAction a = false := by
  cases a with
  | join ti t g => rfl
  | exit ti t g => rfl
  | batchSwap d => simp [isExitAction, Action.type] at h

theorem not_enter_of_middle (a : Action) (h : isMiddleAction a = true) :
    isEnterAction a = false := by
  simp only [isMiddleAction, Bool.and_eq_true, Bool.not_eq_true'] at h
  exact h.1

theorem not_exit_of_middle (a : Action) (h : isMiddleAction a = true) :
    isExitAction a = false := by
  simp only [isMiddleAction, Bool.and_eq_true, Bool.not_eq_true'] at h
  exact h.2

theorem not_exit_of_enter (a : Action) (h : isEnterAction a = true) :
    isExitAction a = false := by
  simp only [isEnterAction, Bool.and_eq_true] at h
  simp [isExitAction, h.2]

theorem not_enter_of_exit (a : Action) (h : isExitAction a = true) :
    isEnterAction a = false := by
  simp only [isExitAction, Bool.and_eq_true, Bool.not_eq_true'] at h
  simp [isEnterAction, h.1.2]

theorem categorizeLoop_cons (a : Action) (rest : List Action) :
    categorizeLoop (a :: rest)
      = (if isEnterAction a then
          (a :: (categorizeLoop rest).1, (categorizeLoop rest).2.1, (categorizeLoop rest).2.2)
        else if isExitAction a then
          ((categorizeLoop rest).1, (categorizeLoop rest).2.1, a :: (categorizeLoop rest).2.2)
        else
          ((categorizeLoop rest).1, a :: (categorizeLoop rest).2.1, (categorizeLoop rest).2.2)) := by
  cases a with
  | join ti t g => cases ti <;> cases t <;> rfl
  | exit ti t g => cases ti <;> cases t <;> rfl
  | batchSwap d => rfl

theorem categorizeLoop_eq (xs : List Action) :
    categorizeLoop xs
      = (xs.filter isEnterAction, xs.filter isMiddleAction, xs.filter isExitAction) := by
  induction xs with
  | nil => rfl
  | cons a rest ih =>
    rw [categorizeLoop_cons, ih]
    cases hE : isEnterAction a with
    | true =>
      have hM : isMiddleAction a = false := by simp [isMiddleAction, hE]
      have hX : isExitAction a = false := not_exit_of_enter a hE
      simp [List.filter_cons, hE, hM, hX]
    | false =>
      cases hX : isExitAction a with
      | true =>
        have hM : isMiddleAction a = false := by simp [isMiddleAction, hX]
        simp [List.filter_cons, hE, hM, hX]
      | false =>
        have hM : isMiddleAction a = true := by simp [isMiddleAction, hE, hX]
        simp [List.filter_cons, hE, hM, hX]

theorem batchAux_none_nonswap (xs : List Action)
    (h : ∀ a ∈ xs, isSwapAction a = false) :
    batchAux none xs = xs := by
  induction xs with
  | nil => rfl
  | cons a rest ih =>
    have hrest : ∀ b ∈ rest, isSwapAction b = false :=
      fun b hb => h b (List.mem_cons_of_mem _ hb)
    cases a with
    | join ti t g =>
      rw [show batchAux none (Action.join ti t g :: rest)
          = Action.join ti t g :: batchAux none rest from rfl, ih hrest]
    | exit ti t g =>
      rw [show batchAux none (Action.exit ti t g :: rest)
          = Action.exit ti t g :: batchAux none rest from rfl, ih hrest]
    | batchSwap d =>
      have := h _ (List.mem_cons_self _ _)
      simp [isSwapAction] at this

theorem batchAux_front (E rest : List Action)
    (h : ∀ a ∈ E, isSwapAction a = false) :
    batchAux none (E ++ rest) = E ++ batchAux none rest := by
  induction E with
  | nil => rfl
  | cons a E' ih =>
    have hE' : ∀ b ∈ E', isSwapAction b = false :=
      fun b hb => h b (List.mem_cons_of_mem _ hb)
    cases a with
    | join ti t g =>
      rw [List.cons_append,
        show batchAux none (Action.join ti t g :: (E' ++ rest))
          = Action.join ti t g :: batchAux none (E' ++ rest) from rfl,
        ih hE', List.cons_append]
    | exit ti t g =>
      rw [List.cons_append,
        show batchAux none (Action.exit ti t g :: (E' ++ rest))
          = Action.exit ti t g :: batchAux none (E' ++ rest) from rfl,
        ih hE', List.cons_append]
    | batchSwap d =>
      have := h _ (List.mem_cons_self _ _)
      simp [isSwapAction] at this

theorem batchAux_state_nonswap (st : Option BatchSwapData) (X : List Action)
    (hX : ∀ a ∈ X, isSwapAction a = false) :
    ∃ ms, (∀ a ∈ ms, isMiddleAction a = true) ∧ batchAux st X = ms ++ X := by
  cases st with
  | none =>
    exact ⟨[], by simp, by rw [batchAux_none_nonswap X hX]; rfl⟩
  | some agg =>
    cases X with
    | nil =>
      cases hlen : (agg.swaps.length == 1) with
      | true =>
        refine ⟨[Action.batchSwap agg], ?_, ?_⟩
        · intro b hb
          rw [List.mem_singleton.mp hb]
          exact isMiddle_batchSwap agg
        · rw [show batchAux (some agg) []
              = if agg.swaps.length == 1 then [Action.batchSwap agg] else []
              from rfl, hlen]
          rfl
      | false =>
        refine ⟨[], by simp, ?_⟩
        rw [show batchAux (some agg) []
            = if agg.swaps.length == 1 then [Action.batchSwap agg] else []
            from rfl, hlen]
        rfl
    | cons x X' =>
      have hX' : ∀ b ∈ X', isSwapAction b = false :=
        fun b hb => hX b (List.mem_cons_of_mem _ hb)
      cases x with
      | join ti t g =>
        refine ⟨[Action.batchSwap agg], ?_, ?_⟩
        · intro b hb
          rw [List.mem_singleton.mp hb]
          exact isMiddle_batchSwap agg
        · rw [show batchAux (some agg) (Action.join ti t g :: X')
              = Action.batchSwap agg :: Action.join ti t g :: batchAux none X'
              from rfl, batchAux_none_nonswap X' hX']
          rfl
      | exit ti t g =>
        refine ⟨[Action.batchSwap agg], ?_, ?_⟩
        · intro b hb
          rw [List.mem_singleton.mp hb]
          exact isMiddle_batchSwap agg
        · rw [show batchAux (some agg) (Action.exit ti t g :: X')
              = Action.batchSwap agg :: Action.exit ti t g :: batchAux none X'
              from rfl, batchAux_none_nonswap X' hX']
          rfl
      | batchSwap d =>
        have := hX _ (List.mem_cons_self _ _)
        simp [isSwapAction] at this

theorem batchAux_middles (M : List Action) :
    ∀ (st : Option BatchSwapData) (X : List Action),
      (∀ a ∈ M, isMiddleAction a = true) → (∀ a ∈ X, isSwapAction a = false) →
      ∃ ms, (∀ a ∈ ms, isMiddleAction a = true) ∧ batchAux st (M ++ X) = ms ++ X := by
  induction M with
  | nil =>
    intro st X hM hX
    simpa using batchAux_state_nonswap st X hX
  | cons a M' ih =>
    intro st X hM hX
    have haM : isMiddleAction a = true := hM a (List.mem_cons_self _ _)
    have hM' : ∀ b ∈ M', isMiddleAction b = true :=
      fun b hb => hM b (List.mem_cons_of_mem _ hb)
    cases a with
    | join ti t g =>
      obtain ⟨ms, hms, heq⟩ := ih none X hM' hX
      cases st with
      | none =>
        refine ⟨Action.join ti t g :: ms, ?_, ?_⟩
        · intro b hb
          rcases List.mem_cons.mp hb with h | h
          · rw [h]; exact haM
          · exact hms b h
        · rw [List.cons_append,
            show batchAux none (Action.join ti t g :: (M' ++ X))
              = Action.join ti t g :: batchAux none (M' ++ X) from rfl,
            heq, List.cons_append]
      | some agg =>
        refine ⟨Action.batchSwap agg :: Action.join ti t g :: ms, ?_, ?_⟩
        · intro b hb
          rcases List.mem_cons.mp hb with h | h
          · rw [h]; exact isMiddle_batchSwap agg
          · rcases List.mem_cons.mp h with h2 | h2
            · rw [h2]; exact haM
            · exact hms b h2
        · rw [List.cons_append,
            show batchAux (some agg) (Action.join ti t g :: (M' ++ X))
              = Action.batchSwap agg :: Action.join ti t g :: batchAux none (M' ++ X)
              from rfl,
            heq, List.cons_append, List.cons_append]
    | exit ti t g =>
      obtain ⟨ms, hms, heq⟩ := ih none X hM' hX
      cases st with
      | none =>
        refine ⟨Action.exit ti t g :: ms, ?_, ?_⟩
        · intro b hb
          rcases List.mem_cons.mp hb with h | h
          · rw [h]; exact haM
          · exact hms b h
        · rw [List.cons_append,
            show batchAux none (Action.exit ti t g :: (M' ++ X))
              = Action.exit ti t g :: batchAux none (M' ++ X) from rfl,
            heq, List.cons_append]
      | some agg =>
        refine ⟨Action.batchSwap agg :: Action.exit ti t g :: ms, ?_, ?_⟩
        · intro b hb
          rcases List.mem_cons.mp hb with h | h
          · rw [h]; exact isMiddle_batchSwap agg
          · rcases List.mem_cons.mp h with h2 | h2
            · rw [h2]; exact haM
            · exact hms b h2
        · rw [List.cons_append,
            show batchAux (some agg) (Action.exit ti t g :: (M' ++ X))
              = Action.batchSwap agg :: Action.exit ti t g :: batchAux none (M' ++ X)
              from rfl,
            heq, List.cons_append, List.cons_append]
    | batchSwap d =>
      cases st with
      | none =>
        obtain ⟨ms, hms, heq⟩ := ih (some d) X hM' hX
        refine ⟨ms, hms, ?_⟩
        rw [List.cons_append,
          show batchAux none (Action.batchSwap d :: (M' ++ X))
            = batchAux (some d) (M' ++ X) from rfl, heq]
      | some agg =>
        cases hc : canAddSwap agg d with
        | true =>
          obtain ⟨ms, hms, heq⟩ := ih (some (addSwap agg d)) X hM' hX
          refine ⟨ms, hms, ?_⟩
          rw [List.cons_append,
            show batchAux (some agg) (Action.batchSwap d :: (M' ++ X))
              = if canAddSwap agg d then batchAux (some (addSwap agg d)) (M' ++ X)
                else Action.batchSwap agg :: batchAux (some d) (M' ++ X) from rfl,
            hc]
          simpa using heq
        | false =>
          obtain ⟨ms, hms, heq⟩ := ih (some d) X hM' hX
          refine ⟨Action.batchSwap agg :: ms, ?_, ?_⟩
          · intro b hb
            rcases List.mem_cons.mp hb with h | h
            · rw [h]; exact isMiddle_batchSwap agg
            · exact hms b h
          · rw [List.cons_append,
              show batchAux (some agg) (Action.batchSwap d :: (M' ++ X))
                = if canAddSwap agg d then batchAux (some (addSwap agg d)) (M' ++ X)
                  else Action.batchSwap agg :: batchAux (some d) (M' ++ X) from rfl,
              hc]
            simp [heq]

/-- C1 counterexample: two compatible swaps followed by an exit-class action.
orderActions merges the two swaps, so the middle partition of the output is
the single merged aggregate and not the two input swaps in their input
order — refuting the claimed stable partition of the input inside the output
of orderActions. -/
theorem orderActions_middle_not_stable :
    (orderActions [Action.batchSwap swapDataA, Action.batchSwap swapDataB,
        exitOut]).filter isMiddleAction
      ≠ ([Action.batchSwap swapDataA, Action.batchSwap swapDataB,
        exitOut] : List Action).filter isMiddleAction := by
  decide

/-- C1 (amended): categorizeActions is the stable three-way partition of its
input (enter, then middle, then exit, each in input order); the output of
orderActions keeps every enter action before every middle action before
every exit action, and the enter and exit partitions of the output equal
those of the input in input order, but its middle segment consists of
middle actions only up to batching (consecutive compatible swaps may be
merged and a trailing multi-step aggregate dropped), not the input middle
actions themselves. -/
theorem orderActions_partition (xs : List Action) :
    categorizeActions xs
        = xs.filter isEnterAction ++ xs.filter isMiddleAction ++ xs.filter isExitAction
    ∧ (∃ ms, (∀ a ∈ ms, isMiddleAction a = true)
        ∧ orderActions xs = xs.filter isEnterAction ++ ms ++ xs.filter isExitAction)
    ∧ (orderActions xs).filter isEnterAction = xs.filter isEnterAction
    ∧ (orderActions xs).filter isExitAction = xs.filter isExitAction := by
  have hcat : categorizeActions xs
      = xs.filter isEnterAction ++ xs.filter isMiddleAction ++ xs.filter isExitAction := by
    rw [categorizeActions, categorizeLoop_eq]
  have hEnon : ∀ a ∈ xs.filter isEnterAction, isSwapAction a = false :=
    fun a ha => nonswap_of_enter a (List.of_mem_filter ha)
  have hXnon : ∀ a ∈ xs.filter isExitAction, isSwapAction a = false :=
    fun a ha => nonswap_of_exit a (List.of_mem_filter ha)
  have hMmid : ∀ a ∈ xs.filter isMiddleAction, isMiddleAction a = true :=
    fun a ha => List.of_mem_filter ha
  obtain ⟨ms, hms, heq⟩ :=
    batchAux_middles (xs.filter isMiddleAction) none (xs.filter isExitAction) hMmid hXnon
  have horder : orderActions xs
      = xs.filter isEnterAction ++ ms ++ xs.filter isExitAction := by
    rw [orderActions, hcat, batchSwapActions, List.append_assoc,
      batchAux_front _ _ hEnon, heq, List.append_assoc]
  refine ⟨hcat, ⟨ms, hms, horder⟩, ?_, ?_⟩
  · have h1 : (xs.filter isEnterAction).filter isEnterAction = xs.filter isEnterAction :=
      List.filter_eq_self.mpr (fun a ha => List.of_mem_filter ha)
    have h2 : ms.filter isEnterAction = [] :=
      List.filter_eq_nil_iff.mpr (fun a ha => by
        simp [not_enter_of_middle a (hms a ha)])
    have h3 : (xs.filter isExitAction).filter isEnterAction = [] :=
      List.filter_eq_nil_iff.mpr (fun a ha => by
        simp [not_enter_of_exit a (List.of_mem_filter ha)])
    rw [horder]
    simp [List.filter_append, h1, h2, h3]
  · have h1 : (xs.filter isEnterAction).filter isExitAction = [] :=
      List.filter_eq_nil_iff.mpr (fun a ha => by
        simp [not_exit_of_enter a (List.of_mem_filter ha)])
    have h2 : ms.filter isExitAction = [] :=
      List.filter_eq_nil_iff.mpr (fun a ha => by
        simp [not_exit_of_middle a (hms a ha)])
    have h3 : (xs.filter isExitAction).filter isExitAction = xs.filter isExitAction :=
      List.filter_eq_self.mpr (fun a ha => List.of_mem_filter ha)
    rw [horder]
    simp [List.filter_append, h1, h2, h3]

/-- C2: the batcher lets runs of non-swap actions pass through unchanged
(flushing and resetting around them); a run of two compatible swaps followed
by a non-swap is merged into one aggregate, flushed before the non-swap,
after which batching restarts fresh; a trailing aggregate holding exactly
one swap step is appended by the final flush; and on the scenario
[Join, SwapA, SwapB, Exit] with A and B sharing the same external funding
source the result is exactly the 3 elements [Join, merged(A,B), Exit]. -/
theorem batchSwapActions_scan :
    (∀ xs ys, (∀ a ∈ xs, isSwapAction a = false) →
      batchSwapActions (xs ++ ys) = xs ++ batchSwapActions ys)
    ∧ (∀ s1 s2 a ys, canAddSwap s1 s2 = true → isSwapAction a = false →
      batchSwapActions (Action.batchSwap s1 :: Action.batchSwap s2 :: a :: ys)
        = Action.batchSwap (addSwap s1 s2) :: a :: batchSwapActions ys)
    ∧ (∀ s, s.swaps.length = 1 →
      batchSwapActions [Action.batchSwap s] = [Action.batchSwap s])
    ∧ batchSwapActions [joinIn, Action.batchSwap swapDataA,
        Action.batchSwap swapDataB, exitOut]
      = [joinIn, Action.batchSwap (addSwap swapDataA swapDataB), exitOut]
    ∧ (batchSwapActions [joinIn, Action.batchSwap swapDataA,
        Action.batchSwap swapDataB, exitOut]).length = 3 := by
  refine ⟨fun xs ys h => batchAux_front xs ys h, ?_, ?_, by decide, by decide⟩
  · intro s1 s2 a ys hc ha
    rw [batchSwapActions,
      show batchAux none (Action.batchSwap s1 :: Action.batchSwap s2 :: a :: ys)
        = batchAux (some s1) (Action.batchSwap s2 :: a :: ys) from rfl,
      show batchAux (some s1) (Action.batchSwap s2 :: a :: ys)
        = if canAddSwap s1 s2 then batchAux (some (addSwap s1 s2)) (a :: ys)
          else Action.batchSwap s1 :: batchAux (some s2) (a :: ys) from rfl,
      hc]
    cases a with
    | join ti t g => rfl
    | exit ti t g => rfl
    | batchSwap d => simp [isSwapAction] at ha
  · intro s hs
    rw [batchSwapActions,
      show batchAux none [Action.batchSwap s] = batchAux (some s) [] from rfl,
      show batchAux (some s) []
        = if s.swaps.length == 1 then [Action.batchSwap s] else [] from rfl,
      hs]
    rfl

/-- C2 witness: the scan laws applied at concrete inputs. -/
theorem batchSwapActions_scan_witness :
    batchSwapActions ([joinIn] ++ [exitOut]) = [joinIn] ++ batchSwapActions [exitOut]
    ∧ batchSwapActions [Action.batchSwap swapDataA, Action.batchSwap swapDataB, exitOut]
      = Action.batchSwap (addSwap swapDataA swapDataB) :: exitOut :: batchSwapActions []
    ∧ batchSwapActions [Action.batchSwap swapDataA] = [Action.batchSwap swapDataA] :=
  ⟨batchSwapActions_scan.1 [joinIn] [exitOut] (by decide),
    batchSwapActions_scan.2.1 swapDataA swapDataB exitOut [] (by decide) (by decide),
    batchSwapActions_scan.2.2.1 swapDataA (by decide)⟩

/-- C10: a scan that ends holding an in-progress aggregate with two or more
swap steps drops it: the final flush only keeps a singleton aggregate; in
particular two trailing compatible swaps, or a single multi-step swap, are
omitted entirely from the output, which therefore can hold fewer swap steps
than the input. -/
theorem batchSwapActions_drops_trailing :
    (∀ agg : BatchSwapData, 2 ≤ agg.swaps.length → batchAux (some agg) [] = [])
    ∧ (∀ s1 s2, canAddSwap s1 s2 = true → 2 ≤ (addSwap s1 s2).swaps.length →
      batchSwapActions [Action.batchSwap s1, Action.batchSwap s2] = [])
    ∧ (∀ s, 2 ≤ s.swaps.length → batchSwapActions [Action.batchSwap s] = [])
    ∧ batchSwapActions [Action.batchSwap swapDataA, Action.batchSwap swapDataB] = []
    ∧ totalSwapSteps (batchSwapActions
        [Action.batchSwap swapDataA, Action.batchSwap swapDataB])
      < totalSwapSteps [Action.batchSwap swapDataA, Action.batchSwap swapDataB] := by
  have hdrop : ∀ agg : BatchSwapData, 2 ≤ agg.swaps.length →
      batchAux (some agg) [] = [] := by
    intro agg h
    have hne : (agg.swaps.length == 1) = false := by
      simp only [beq_eq_false_iff_ne, ne_eq]
      omega
    rw [show batchAux (some agg) []
        = if agg.swaps.length == 1 then [Action.batchSwap agg] else [] from rfl, hne]
    rfl
  refine ⟨hdrop, ?_, ?_, by decide, by decide⟩
  · intro s1 s2 hc hlen
    rw [batchSwapActions,
      show batchAux none [Action.batchSwap s1, Action.batchSwap s2]
        = batchAux (some s1) [Action.batchSwap s2] from rfl,
      show batchAux (some s1) [Action.batchSwap s2]
        = if canAddSwap s1 s2 then batchAux (some (addSwap s1 s2)) []
          else Action.batchSwap s1 :: batchAux (some s2) [] from rfl,
      hc]
    simpa using hdrop (addSwap s1 s2) hlen
  · intro s hlen
    rw [batchSwapActions,
      show batchAux none [Action.batchSwap s] = batchAux (some s) [] from rfl]
    exact hdrop s hlen

/-- C10 witness: the drop laws applied at concrete inputs. -/
theorem batchSwapActions_drops_trailing_witness :
    batchAux (some (addSwap swapDataA swapDataB)) [] = []
    ∧ batchSwapActions [Action.batchSwap swapDataC, Action.batchSwap swapDataD] = [] :=
  ⟨batchSwapActions_drops_trailing.1 (addSwap swapDataA swapDataB) (by decide),
    batchSwapActions_drops_trailing.2.1 swapDataC swapDataD (by decide) (by decide)⟩

theorem batchAux_chain (xs : List Action) :
    ∀ st, List.Chain' incompatible (batchAux st xs) ∧ headSourceOK st (batchAux st xs) := by
  induction xs with
  | nil =>
    intro st
    cases st with
    | none => exact ⟨List.chain'_nil, trivial⟩
    | some agg =>
      cases hlen : (agg.swaps.length == 1) with
      | true =>
        have hout : batchAux (some agg) [] = [Action.batchSwap agg] := by
          rw [show batchAux (some agg) []
              = if agg.swaps.length == 1 then [Action.batchSwap agg] else [] from rfl]
          simp [hlen]
        rw [hout]
        refine ⟨List.chain'_singleton _, ?_⟩
        intro d hd
        simp only [List.head?_cons, Option.some.injEq, Action.batchSwap.injEq] at hd
        rw [hd]
      | false =>
        have hout : batchAux (some agg) [] = [] := by
          rw [show batchAux (some agg) []
              = if agg.swaps.length == 1 then [Action.batchSwap agg] else [] from rfl]
          simp [hlen]
        rw [hout]
        exact ⟨List.chain'_nil, by intro d hd; simp at hd⟩
  | cons a rest ih =>
    intro st
    cases a with
    | join ti t g =>
      cases st with
      | none =>
        rw [show batchAux none (Action.join ti t g :: rest)
            = Action.join ti t g :: batchAux none rest from rfl]
        refine ⟨List.chain'_cons'.mpr ⟨?_, (ih none).1⟩, trivial⟩
        intro y hy d1 d2 h1 h2
        exact Action.noConfusion h1
      | some agg =>
        rw [show batchAux (some agg) (Action.join ti t g :: rest)
            = Action.batchSwap agg :: Action.join ti t g :: batchAux none rest from rfl]
        constructor
        · refine List.chain'_cons'.mpr ⟨?_, List.chain'_cons'.mpr ⟨?_, (ih none).1⟩⟩
          · intro y hy d1 d2 h1 h2
            simp only [List.head?_cons, Option.mem_def, Option.some.injEq] at hy
            rw [← hy] at h2
            exact Action.noConfusion h2
          · intro y hy d1 d2 h1 h2
            exact Action.noConfusion h1
        · intro d hd
          simp only [List.head?_cons, Option.some.injEq, Action.batchSwap.injEq] at hd
          rw [hd]
    | exit ti t g =>
      cases st with
      | none =>
        rw [show batchAux none (Action.exit ti t g :: rest)
            = Action.exit ti t g :: batchAux none rest from rfl]
        refine ⟨List.chain'_cons'.mpr ⟨?_, (ih none).1⟩, trivial⟩
        intro y hy d1 d2 h1 h2
        exact Action.noConfusion h1
      | some agg =>
        rw [show batchAux (some agg) (Action.exit ti t g :: rest)
            = Action.batchSwap agg :: Action.exit ti t g :: batchAux none rest from rfl]
        constructor
        · refine List.chain'_cons'.mpr ⟨?_, List.chain'_cons'.mpr ⟨?_, (ih none).1⟩⟩
          · intro y hy d1 d2 h1 h2
            simp only [List.head?_cons, Option.mem_def, Option.some.injEq] at hy
            rw [← hy] at h2
            exact Action.noConfusion h2
          · intro y hy d1 d2 h1 h2
            exact Action.noConfusion h1
        · intro d hd
          simp only [List.head?_cons, Option.some.injEq, Action.batchSwap.injEq] at hd
          rw [hd]
    | batchSwap d =>
      cases st with
      | none =>
        rw [show batchAux none (Action.batchSwap d :: rest)
            = batchAux (some d) rest from rfl]
        exact ⟨(ih (some d)).1, trivial⟩
      | some agg =>
        cases hc : canAddSwap agg d with
        | true =>
          rw [show batchAux (some agg) (Action.batchSwap d :: rest)
              = if canAddSwap agg d then batchAux (some (addSwap agg d)) rest
                else Action.batchSwap agg :: batchAux (some d) rest from rfl, hc,
            if_pos rfl]
          refine ⟨(ih (some (addSwap agg d))).1, ?_⟩
          intro d' hd'
          exact (ih (some (addSwap agg d))).2 d' hd'
        | false =>
          rw [show batchAux (some agg) (Action.batchSwap d :: rest)
              = if canAddSwap agg d then batchAux (some (addSwap agg d)) rest
                else Action.batchSwap agg :: batchAux (some d) rest from rfl, hc]
          simp only [Bool.false_eq_true, if_false]
          constructor
          · refine List.chain'_cons'.mpr ⟨?_, (ih (some d)).1⟩
            intro y hy d1 d2 h1 h2
            have hy2 : (batchAux (some d) rest).head? = some (Action.batchSwap d2) := by
              rw [Option.mem_def] at hy
              rw [hy, h2]
            have hsrc : d2.source = d.source := (ih (some d)).2 d2 hy2
            have h1' : agg = d1 := by
              injection h1
            rw [canAddSwap, ← h1', hsrc]
            exact hc
          · intro d' hd'
            simp only [List.head?_cons, Option.some.injEq, Action.batchSwap.injEq] at hd'
            rw [hd']

theorem batchAux_fixpoint (ys : List Action) :
    List.Chain' incompatible ys → lastAggSingleton ys = true →
    batchAux none ys = ys := by
  induction ys with
  | nil => intro _ _; rfl
  | cons a rest ih =>
    intro hchain hlast
    have hchain' : List.Chain' incompatible rest := hchain.tail
    cases a with
    | join ti t g =>
      rw [show batchAux none (Action.join ti t g :: rest)
          = Action.join ti t g :: batchAux none rest from rfl]
      have hlast' : lastAggSingleton rest = true := by
        cases rest with
        | nil => rfl
        | cons b r =>
          rw [lastAggSingleton, List.getLast?_cons_cons] at hlast
          rw [lastAggSingleton]
          exact hlast
      rw [ih hchain' hlast']
    | exit ti t g =>
      rw [show batchAux none (Action.exit ti t g :: rest)
          = Action.exit ti t g :: batchAux none rest from rfl]
      have hlast' : lastAggSingleton rest = true := by
        cases rest with
        | nil => rfl
        | cons b r =>
          rw [lastAggSingleton, List.getLast?_cons_cons] at hlast
          rw [lastAggSingleton]
          exact hlast
      rw [ih hchain' hlast']
    | batchSwap d =>
      rw [show batchAux none (Action.batchSwap d :: rest)
          = batchAux (some d) rest from rfl]
      cases rest with
      | nil =>
        have hl : (d.swaps.length == 1) = true := by
          rw [lastAggSingleton] at hlast
          simpa using hlast
        rw [show batchAux (some d) []
            = if d.swaps.length == 1 then [Action.batchSwap d] else [] from rfl, hl,
          if_pos rfl]
      | cons b r =>
        have hlast' : lastAggSingleton (b :: r) = true := by
          rw [lastAggSingleton, List.getLast?_cons_cons] at hlast
          rw [lastAggSingleton]
          exact hlast
        have hrest : batchAux none (b :: r) = b :: r := ih hchain' hlast'
        cases b with
        | join ti t g =>
          rw [show batchAux (some d) (Action.join ti t g :: r)
              = Action.batchSwap d :: Action.join ti t g :: batchAux none r from rfl]
          have hr : batchAux none r = r := by
            have h2 : Action.join ti t g :: batchAux none r = Action.join ti t g :: r := by
              rw [← show batchAux none (Action.join ti t g :: r)
                  = Action.join ti t g :: batchAux none r from rfl, hrest]
            simpa using h2
          rw [hr]
        | exit ti t g =>
          rw [show batchAux (some d) (Action.exit ti t g :: r)
              = Action.batchSwap d :: Action.exit ti t g :: batchAux none r from rfl]
          have hr : batchAux none r = r := by
            have h2 : Action.exit ti t g :: batchAux none r = Action.exit ti t g :: r := by
              rw [← show batchAux none (Action.exit ti t g :: r)
                  = Action.exit ti t g :: batchAux none r from rfl, hrest]
            simpa using h2
          rw [hr]
        | batchSwap d2 =>
          have hinc : incompatible (Action.batchSwap d) (Action.batchSwap d2) :=
            (List.chain'_cons'.mp hchain).1 (Action.batchSwap d2) rfl
          have hc : canAddSwap d d2 = false := hinc d d2 rfl rfl
          have h3 : batchAux (some d2) r = Action.batchSwap d2 :: r := by
            rw [← show batchAux none (Action.batchSwap d2 :: r)
                = batchAux (some d2) r from rfl]
            exact hrest
          rw [show batchAux (some d) (Action.batchSwap d2 :: r)
              = if canAddSwap d d2 then batchAux (some (addSwap d d2)) r
                else Action.batchSwap d :: batchAux (some d2) r from rfl, hc]
          simp [h3]

/-- C6 counterexample: four single-step swaps, the first two sharing one
funding source and the last two sharing another. One run of the batcher
merges the first two, drops the trailing merged pair, and leaves a
two-step aggregate as the last element; a second run drops that aggregate
as well, so running the batcher twice differs from running it once. -/
theorem batchSwapActions_not_idem :
    batchSwapActions (batchSwapActions [Action.batchSwap swapDataA,
        Action.batchSwap swapDataB, Action.batchSwap swapDataC,
        Action.batchSwap swapDataD])
      ≠ batchSwapActions [Action.batchSwap swapDataA, Action.batchSwap swapDataB,
        Action.batchSwap swapDataC, Action.batchSwap swapDataD] := by
  decide

/-- C6 (amended): running the batcher a second time on its own output
yields the same sequence whenever that output does not end with a BatchSwap
aggregate holding a number of swap steps other than one (in particular
whenever it is empty, ends with a Join/Exit, or ends with a single-step
swap); an output ending with a multi-step aggregate is dropped by the
second run's final flush. -/
theorem batchSwapActions_idem (xs : List Action)
    (h : lastAggSingleton (batchSwapActions xs) = true) :
    batchSwapActions (batchSwapActions xs) = batchSwapActions xs :=
  batchAux_fixpoint (batchSwapActions xs) (batchAux_chain xs none).1 h

/-- C6 witness: the amended idempotence applied to a singleton swap list. -/
theorem batchSwapActions_idem_witness :
    lastAggSingleton (batchSwapActions [Action.batchSwap swapDataA]) = true
    ∧ batchSwapActions (batchSwapActions [Action.batchSwap swapDataA])
        = batchSwapActions [Action.batchSwap swapDataA] :=
  ⟨by decide, batchSwapActions_idem [Action.batchSwap swapDataA] (by decide)⟩

theorem foldl_add_shift (ds : List Int) :
    ∀ x y : Int, ds.foldl (· + ·) (x + y) = x + ds.foldl (· + ·) y := by
  induction ds with
  | nil => intro x y; rfl
  | cons d ds ih =>
    intro x y
    rw [List.foldl_cons, List.foldl_cons, add_assoc, ih]

theorem sumInt_cons (d : Int) (ds : List Int) : sumInt (d :: ds) = d + sumInt ds := by
  rw [sumInt, List.foldl_cons, show (0 : Int) + d = d + 0 from by ring,
    foldl_add_shift ds d 0]
  rfl

theorem foldl_add_shift_nat (vs : List Nat) :
    ∀ x y : Nat, vs.foldl (· + ·) (x + y) = x + vs.foldl (· + ·) y := by
  induction vs with
  | nil => intro x y; rfl
  | cons v vs ih =>
    intro x y
    rw [List.foldl_cons, List.foldl_cons, Nat.add_assoc, ih]

theorem sumNat_cons (v : Nat) (vs : List Nat) : sumNat (v :: vs) = v + sumNat vs := by
  rw [sumNat, List.foldl_cons, show 0 + v = v + 0 from by omega,
    foldl_add_shift_nat vs v 0]
  rfl

theorem vaultModelPath_error_cases (vm : List Request → Bool → String → Option Int)
    (requests : List Request) (b : Bool) (e : String)
    (h : (vaultModelPath vm requests b).1 = Except.error e) :
    e = msgNoLastRequest ∨ e = msgNoSwapStep ∨ e = msgNoDelta := by
  rcases hgl : requests.getLast? with _ | lastRequest
  · simp only [vaultModelPath, hgl] at h
    simp only [Except.error.injEq] at h
    exact Or.inl h.symm
  · rcases hpid : rootPoolIdOf lastRequest with _ | poolId
    · simp only [vaultModelPath, hgl, hpid] at h
      simp only [Except.error.injEq] at h
      exact Or.inr (Or.inl h.symm)
    · rcases hdel : vm requests b (getPoolAddress poolId) with _ | delta
      · simp only [vaultModelPath, hgl, hpid, hdel] at h
        simp only [Except.error.injEq] at h
        exact Or.inr (Or.inr h.symm)
      · simp only [vaultModelPath, hgl, hpid, hdel] at h
        exact Except.noConfusion h

theorem runVaultPaths_error_cases (vm : List Request → Bool → String → Option Int)
    (paths : List (List Request)) :
    ∀ (b : Bool) (acc : List String) (total : Int) (e : String),
      (runVaultPaths vm paths b acc total).1 = Except.error e →
      e = msgNoLastRequest ∨ e = msgNoSwapStep ∨ e = msgNoDelta := by
  induction paths with
  | nil =>
    intro b acc total e h
    simp [runVaultPaths] at h
  | cons reqs rest ih =>
    intro b acc total e h
    rcases hp : vaultModelPath vm reqs b with ⟨res, n⟩
    cases res with
    | error e2 =>
      simp only [runVaultPaths, hp] at h
      have he : e2 = e := by simpa using h
      exact he ▸ vaultModelPath_error_cases vm reqs b e2 (by rw [hp])
    | ok delta =>
      simp only [runVaultPaths, hp] at h
      exact ih false (acc ++ [toString delta]) (total + delta) e (by simpa using h)

theorem runVaultPaths_eq (vm : List Request → Bool → String → Option Int)
    (paths : List (List Request)) :
    ∀ (b : Bool) (acc : List String) (total : Int),
      (runVaultPaths vm paths b acc total).1
        = (vaultDeltas vm paths b).map
            (fun ds => (acc ++ ds.map toString, total + sumInt ds)) := by
  induction paths with
  | nil =>
    intro b acc total
    simp [runVaultPaths, vaultDeltas, sumInt, Except.map]
  | cons reqs rest ih =>
    intro b acc total
    rcases hp : vaultModelPath vm reqs b with ⟨res, n⟩
    cases res with
    | error e =>
      simp only [runVaultPaths, vaultDeltas, hp]
      simp [Except.map]
    | ok delta =>
      simp only [runVaultPaths, vaultDeltas, hp]
      rw [ih false (acc ++ [toString delta]) (total + delta)]
      cases hD : vaultDeltas vm rest false with
      | error e => simp [Except.map]
      | ok ds =>
        simp only [hD, Except.map, Except.ok.injEq, Prod.mk.injEq]
        constructor
        · simp
        · rw [sumInt_cons]
          ring

theorem decodeLoop_eq (env : SimEnv) (mres : List String) (idxs : List Nat) :
    ∀ (acc : List String) (total : Nat), (∀ i ∈ idxs, i < mres.length) →
      decodeLoop env mres idxs acc total
        = Except.ok (acc ++ idxs.map (fun i =>
              toString (env.decodeUint (mres.getD i strEmpty))),
            total + sumNat (idxs.map (fun i =>
              env.decodeUint (mres.getD i strEmpty)))) := by
  induction idxs with
  | nil =>
    intro acc total h
    simp [decodeLoop, sumNat]
  | cons i rest ih =>
    intro acc total h
    have hi : i < mres.length := h i (List.mem_cons_self _ _)
    have hget : mres[i]? = some (mres.getD i strEmpty) := by
      rw [List.getElem?_eq_getElem hi, List.getD_eq_getElem mres strEmpty hi]
    simp only [decodeLoop, hget]
    rw [ih (acc ++ [toString (env.decodeUint (mres.getD i strEmpty))])
      (total + env.decodeUint (mres.getD i strEmpty))
      (fun j hj => h j (List.mem_cons_of_mem _ hj))]
    simp only [List.map_cons, Except.ok.injEq, Prod.mk.injEq]
    constructor
    · simp
    · rw [sumNat_cons]
      omega

/-- C7: the dispatcher returns the unsupported-strategy configuration error,
with no external call performed, exactly when the numeric strategy is none
of the three supported values; and it returns the missing-vault-model
configuration error, again with no external call performed, exactly when
the VaultModel strategy is selected while no replica was configured. In
every other situation neither configuration error is produced, so no
silent fallback to another strategy can occur. -/
theorem simulateGeneralisedJoin_config_errors (env : SimEnv) (toAddress : String)
    (multiRequests : List (List Request)) (encodedCall : String)
    (outputIndexes : List Nat) (userAddress : String) (tokensIn : List String)
    (simulationType : Nat) :
    (simulateGeneralisedJoin env toAddress multiRequests encodedCall outputIndexes
        userAddress tokensIn simulationType
        = (Except.error msgNotSupported, ([] : List IOEvent))
      ↔ 3 ≤ simulationType)
    ∧ (simulateGeneralisedJoin env toAddress multiRequests encodedCall outputIndexes
        userAddress tokensIn simulationType
        = (Except.error msgMissingVaultModel, ([] : List IOEvent))
      ↔ (simulationType = 1 ∧ env.vaultModel = none)) := by
  by_cases h0 : simulationType = 0
  · subst h0
    rw [show simulateGeneralisedJoin env toAddress multiRequests encodedCall
        outputIndexes userAddress tokensIn 0
      = (decodeResult env (env.tenderlySimulate toAddress encodedCall userAddress
          tokensIn) outputIndexes, [IOEvent.tenderlyCall]) from rfl]
    constructor
    · constructor
      · intro h
        have hsnd := congrArg Prod.snd h
        simp at hsnd
      · intro h; omega
    · constructor
      · intro h
        have hsnd := congrArg Prod.snd h
        simp at hsnd
      · rintro ⟨h1, -⟩
        simp at h1
  by_cases h2 : simulationType = 2
  · subst h2
    rw [show simulateGeneralisedJoin env toAddress multiRequests encodedCall
        outputIndexes userAddress tokensIn 2
      = (decodeResult env (env.staticCall toAddress encodedCall 8000000)
          outputIndexes, [IOEvent.staticChainCall]) from rfl]
    constructor
    · constructor
      · intro h
        have hsnd := congrArg Prod.snd h
        simp at hsnd
      · intro h; omega
    · constructor
      · intro h
        have hsnd := congrArg Prod.snd h
        simp at hsnd
      · rintro ⟨h1, -⟩
        simp at h1
  by_cases h1 : simulationType = 1
  · subst h1
    rw [show simulateGeneralisedJoin env toAddress multiRequests encodedCall
        outputIndexes userAddress tokensIn 1 = vaultBranch env multiRequests from rfl]
    cases hvm : env.vaultModel with
    | none =>
      have hb : vaultBranch env multiRequests
          = (Except.error msgMissingVaultModel, ([] : List IOEvent)) := by
        simp only [vaultBranch, hvm]
      rw [hb]
      constructor
      · constructor
        · intro h
          have hfst := congrArg Prod.fst h
          simp only [Except.error.injEq] at hfst
          exact absurd hfst (by decide)
        · intro h; omega
      · exact ⟨fun _ => ⟨rfl, rfl⟩, fun _ => rfl⟩
    | some vm =>
      have hb : vaultBranch env multiRequests
          = ((runVaultPaths vm multiRequests true [] 0).1.map
              (fun p => { amountsOut := p.1, totalAmountOut := toString p.2 }),
            List.replicate (runVaultPaths vm multiRequests true [] 0).2
              IOEvent.vaultCall) := by
        simp only [vaultBranch, hvm]
      rw [hb]
      have hnoconf : ∀ e : String,
          (runVaultPaths vm multiRequests true [] 0).1 = Except.error e →
          e ≠ msgNotSupported ∧ e ≠ msgMissingVaultModel := by
        intro e he
        rcases runVaultPaths_error_cases vm multiRequests true [] 0 e he with
          h | h | h <;> subst h <;> exact ⟨by decide, by decide⟩
      constructor
      · constructor
        · intro h
          exfalso
          have hfst := congrArg Prod.fst h
          cases hr : (runVaultPaths vm multiRequests true [] 0).1 with
          | error e =>
            rw [hr] at hfst
            simp only [Except.map, Except.error.injEq] at hfst
            exact (hnoconf e hr).1 hfst
          | ok p =>
            rw [hr] at hfst
            simp [Except.map] at hfst
        · intro h; omega
      · constructor
        · intro h
          exfalso
          have hfst := congrArg Prod.fst h
          cases hr : (runVaultPaths vm multiRequests true [] 0).1 with
          | error e =>
            rw [hr] at hfst
            simp only [Except.map, Except.error.injEq] at hfst
            exact (hnoconf e hr).2 hfst
          | ok p =>
            rw [hr] at hfst
            simp [Except.map] at hfst
        · rintro ⟨-, hnone⟩
          exact absurd hnone (by simp)
  · have h3 : 3 ≤ simulationType := by omega
    have e0 : (simulationType == 0) = false := by simp [h0]
    have e1 : (simulationType == 1) = false := by simp [h1]
    have e2 : (simulationType == 2) = false := by simp [h2]
    have hsim : simulateGeneralisedJoin env toAddress multiRequests encodedCall
        outputIndexes userAddress tokensIn simulationType
        = (Except.error msgNotSupported, ([] : List IOEvent)) := by
      simp [simulateGeneralisedJoin, e0, e1, e2]
    rw [hsim]
    constructor
    · exact ⟨fun _ => h3, fun _ => rfl⟩
    · constructor
      · intro h
        have hfst := congrArg Prod.fst h
        simp only [Except.error.injEq] at hfst
        exact absurd hfst (by decide)
      · rintro ⟨h1', -⟩
        exact absurd h1' h1

/-- C7 witness: the characterization applied at strategy value 3 with no
vault model configured. -/
theorem simulateGeneralisedJoin_config_errors_witness :
    simulateGeneralisedJoin envNone strTo [] strCall [] strUser [] 3
      = (Except.error msgNotSupported, ([] : List IOEvent)) :=
  (simulateGeneralisedJoin_config_errors envNone strTo [] strCall [] strUser [] 3).1.mpr
    (by omega)

/-- C8: under the VaultModel strategy with a configured replica, the result
of the dispatcher is exactly the per-path signed deltas rendered to strings
with their sum as totalAmountOut; each path contributes the replica delta
at the root pool BPT address negated, and a path whose root pool has no
resolvable delta makes the call fail instead of contributing a zero. -/
theorem simulateVaultModel_spec (env : SimEnv)
    (vm : List Request → Bool → String → Option Int) (toAddress : String)
    (multiRequests : List (List Request)) (encodedCall : String)
    (outputIndexes : List Nat) (userAddress : String) (tokensIn : List String)
    (hvm : env.vaultModel = some vm) :
    (simulateGeneralisedJoin env toAddress multiRequests encodedCall outputIndexes
        userAddress tokensIn 1).1
      = (vaultDeltas vm multiRequests true).map simResultOfDeltas
    ∧ (∀ requests isFirst lastRequest poolId delta,
        requests.getLast? = some lastRequest →
        rootPoolIdOf lastRequest = some poolId →
        vm requests isFirst (getPoolAddress poolId) = some delta →
        (vaultModelPath vm requests isFirst).1 = Except.ok (-delta))
    ∧ (∀ requests isFirst lastRequest poolId,
        requests.getLast? = some lastRequest →
        rootPoolIdOf lastRequest = some poolId →
        vm requests isFirst (getPoolAddress poolId) = none →
        (vaultModelPath vm requests isFirst).1 = Except.error msgNoDelta) := by
  refine ⟨?_, ?_, ?_⟩
  · rw [show (simulateGeneralisedJoin env toAddress multiRequests encodedCall
        outputIndexes userAddress tokensIn 1).1 = (vaultBranch env multiRequests).1
      from rfl]
    simp only [vaultBranch, hvm]
    rw [runVaultPaths_eq]
    cases hD : vaultDeltas vm multiRequests true with
    | error e => simp [Except.map]
    | ok ds => simp [Except.map, simResultOfDeltas]
  · intro requests isFirst lastRequest poolId delta h1 h2 h3
    simp only [vaultModelPath, h1, h2, h3]
  · intro requests isFirst lastRequest poolId h1 h2 h3
    simp only [vaultModelPath, h1, h2, h3]

/-- C8 witness: the characterization applied to a one-path join whose root
pool delta resolves to -4 in the replica. -/
theorem simulateVaultModel_spec_witness :
    (simulateGeneralisedJoin envVault strTo [[reqJoinA]] strCall [] strUser [] 1).1
      = (vaultDeltas vmA [[reqJoinA]] true).map simResultOfDeltas
    ∧ (vaultModelPath vmA [reqJoinA] true).1 = Except.ok (-(-4)) := by
  refine ⟨(simulateVaultModel_spec envVault vmA strTo [[reqJoinA]] strCall [] strUser []
    rfl).1, ?_⟩
  exact (simulateVaultModel_spec envVault vmA strTo [[reqJoinA]] strCall [] strUser []
    rfl).2.1 [reqJoinA] true reqJoinA poolIdA (-4) rfl rfl (by simp [vmA])

/-- C9: both the Tenderly and the static branch decode their raw result with
the very same decodeResult; identical raw results therefore give identical
outcomes; and on in-range output indexes decodeResult returns, in caller
order, the uint decoded from the indexed sub-result, with totalAmountOut
the sum of all decoded values. -/
theorem decodeResult_agreement (env : SimEnv) (toAddress : String)
    (multiRequests : List (List Request)) (encodedCall : String)
    (outputIndexes : List Nat) (userAddress : String) (tokensIn : List String) :
    (simulateGeneralisedJoin env toAddress multiRequests encodedCall outputIndexes
        userAddress tokensIn 0).1
      = decodeResult env (env.tenderlySimulate toAddress encodedCall userAddress
          tokensIn) outputIndexes
    ∧ (simulateGeneralisedJoin env toAddress multiRequests encodedCall outputIndexes
        userAddress tokensIn 2).1
      = decodeResult env (env.staticCall toAddress encodedCall 8000000) outputIndexes
    ∧ (env.tenderlySimulate toAddress encodedCall userAddress tokensIn
        = env.staticCall toAddress encodedCall 8000000 →
      (simulateGeneralisedJoin env toAddress multiRequests encodedCall outputIndexes
          userAddress tokensIn 0).1
        = (simulateGeneralisedJoin env toAddress multiRequests encodedCall
            outputIndexes userAddress tokensIn 2).1)
    ∧ (∀ raw, (∀ i ∈ outputIndexes, i < (env.decodeBytesArray raw).length) →
      decodeResult env raw outputIndexes
        = Except.ok (decodedSimResult env raw outputIndexes)) := by
  refine ⟨rfl, rfl, ?_, ?_⟩
  · intro h
    exact congrArg (fun raw => decodeResult env raw outputIndexes) h
  · intro raw hr
    simp only [decodeResult]
    rw [decodeLoop_eq env (env.decodeBytesArray raw) outputIndexes [] 0 hr]
    simp [decodedSimResult]

/-- C9 witness: the agreement applied to an environment whose Tenderly and
static raw results coincide, and the decode characterization at two
in-range indexes. -/
theorem decodeResult_agreement_witness :
    (simulateGeneralisedJoin envDec strTo [] strCall [0, 1] strUser [] 0).1
      = (simulateGeneralisedJoin envDec strTo [] strCall [0, 1] strUser [] 2).1
    ∧ decodeResult envDec strRaw [0, 1]
      = Except.ok (decodedSimResult envDec strRaw [0, 1]) := by
  refine ⟨(decodeResult_agreement envDec strTo [] strCall [0, 1] strUser []).2.2.1 rfl, ?_⟩
  exact (decodeResult_agreement envDec strTo [] strCall [0, 1] strUser []).2.2.2
    strRaw (by decide)

end Sdk
